import Mathlib
/-!
Shallow embedding of the core of the `rippled_binary_codec` XRPL transaction
serializer (KeystoneHQ/rippled_binary_codec), together with theorems settling
the specification claims about it.

Conventions of the embedding:
* Bytes are `Nat` values (always < 256 by construction); byte buffers are
  `List Nat`.
* Machine-integer casts are modelled with explicit `% 2 ^ w` reductions
  (`as u32` is `% 2 ^ 32`, `as u8` is `% 256`, `i32::to_be_bytes()[3]` is the
  low byte of the 32-bit pattern, and so on).
* Fallible Rust functions returning `Option` are embedded as `Option`;
  `Result<_, RippleBinaryCodecError>` together with the possibility of a Rust
  panic is embedded as the three-valued `RustOutcome`.
* External collaborators that the spec puts out of scope (SHA-256, the
  `rust_decimal` string parser) are passed in as explicit function parameters
  bundled in `Ext`; everything else is translated from the repository sources.
-/
namespace RippledCodec
/-- Big-endian byte list of a natural number with fixed width `k` bytes; the
value is reduced modulo `2 ^ (8 * k)`.  This models `to_be_bytes` on the
unsigned `w`-bit integer types (and, applied to a two's-complement pattern,
on the signed ones). -/
def beBytes (k : Nat) (v : Nat) : List Nat :=
  match k with
  | 0 => []
  | k + 1 => (v / 2 ^ (8 * k)) % 256 :: beBytes k v
/-- Value of a single hexadecimal digit character, as accepted by the external
`hex` crate used by the repository. -/
def hexDigit (c : Char) : Option Nat :=
  if '0' ≤ c ∧ c ≤ '9' then some (c.toNat - 48)
  else if 'a' ≤ c ∧ c ≤ 'f' then some (c.toNat - 87)
  else if 'A' ≤ c ∧ c ≤ 'F' then some (c.toNat - 55)
  else none
/-- Model of `hex::decode` on a character list: consumes the input two digits
at a time; odd length or an invalid digit is an error. -/
def hexDecodeList : List Char → Option (List Nat)
  | [] => some []
  | [_] => none
  | c1 :: c2 :: rest => do
    let hi ← hexDigit c1
    let lo ← hexDigit c2
    let tail ← hexDecodeList rest
    pure ((16 * hi + lo) :: tail)
/-- Model of `hex::decode` on a Rust string. -/
def hexDecode (s : String) : Option (List Nat) :=
  hexDecodeList s.data
/-- Embedding of `vl_encode` (present twice, identically, in
`src/src/types/address.rs` and `src/src/types/account.rs`).  The Rust code
first narrows the content length with `input.len() as u32`, hence the
`% 2 ^ 32`; prefix bytes are produced through `u32::to_be_bytes()[3]`, i.e.
a final `% 256`. -/
def vl_encode (input : List Nat) : Option (List Nat) :=
  let vl_len : Nat := input.length % 2 ^ 32
  if vl_len ≤ 192 then
    some (vl_len % 256 :: input)
  else if vl_len ≤ 12480 then
    let l := vl_len - 193
    some ((l / 2 ^ 8 + 193) % 256 :: l % 2 ^ 8 % 256 :: input)
  else if vl_len ≤ 918744 then
    let l := vl_len - 12481
    some ((241 + l / 2 ^ 16) % 256 :: l / 2 ^ 8 % 2 ^ 8 % 256 :: l % 2 ^ 8 % 256 :: input)
  else none
/-- Low byte of the 32-bit two's-complement pattern of an `i32`, as obtained
by `x.to_be_bytes()[3]` in the Rust sources. -/
def i32LowByte (x : Int) : Nat :=
  (x % 2 ^ 32).toNat % 256
/-- Embedding of `DefinitionFields::cal_field_id`
(`src/src/definition_fields.rs`, lines 183-201).  The two codes are `i32`;
bit operations are performed on the 32-bit patterns. -/
def cal_field_id (field_code type_code : Int) : List Nat :=
  let f : Nat := (field_code % 2 ^ 32).toNat
  let t : Nat := (type_code % 2 ^ 32).toNat
  if type_code < 16 ∧ field_code < 16 then
    [(t <<< 4 % 2 ^ 32 ||| f) % 256]
  else if 16 ≤ type_code ∧ field_code < 16 then
    [f % 256, t % 256]
  else if type_code < 16 ∧ 16 ≤ field_code then
    [t <<< 4 % 2 ^ 32 % 256, f % 256]
  else
    [0, t % 256, f % 256]
/-- The XRPL base58 alphabet (`src/src/ripple_address_codec.rs`, `ALPHABET`).
Index 0 is the character `r`. -/
def ALPHABET : List Char :=
  "rpshnaf39wBUDNEGHJKLM4PQRST7VWXYZ2bcdeCg65jkm8oFqi1tuvAxyz".data
/-- Index of a character in the base58 alphabet, or `none` when the character
is not a valid base58 digit. -/
def b58Index (c : Char) : Option Nat :=
  ALPHABET.findIdx? (fun a => a = c)
/-- Big-endian accumulation of the base58 digit values of a character list. -/
def b58ValueAux (acc : Nat) : List Char → Option Nat
  | [] => some acc
  | c :: rest =>
    match b58Index c with
    | none => none
    | some i => b58ValueAux (acc * 58 + i) rest
/-- Minimal big-endian byte representation of a natural number (empty for 0);
`fuel`-structured so that it evaluates by `decide`/`rfl` (the value of the
fuel is irrelevant as long as it is at least the byte count, and `v` itself
always is). -/
def natBeBytesAux : Nat → Nat → List Nat
  | 0, _ => []
  | f + 1, v => if v = 0 then [] else natBeBytesAux f (v / 256) ++ [v % 256]
def natBeBytes (v : Nat) : List Nat :=
  natBeBytesAux v v
/-- Model of `base_x::decode` with the XRPL alphabet: the input is read as a
big-endian base-58 number, and every leading index-0 character contributes one
leading zero byte; any character outside the alphabet is a decode error. -/
def b58Decode (s : String) : Option (List Nat) :=
  match b58ValueAux 0 s.data with
  | none => none
  | some v =>
    let zeros := (s.data.takeWhile (fun c => c = 'r')).length
    some (List.replicate zeros 0 ++ natBeBytes v)
/-- Outcome of a Rust `Result`-returning function that may additionally
abort the process: a success value, a `RippleBinaryCodecError::DecodeError`,
or a panic (`crashed`) from an out-of-bounds slice or arithmetic underflow. -/
inductive RustOutcome (α : Type) where
  | ok (a : α)
  | decodeErr (msg : String)
  | crashed
deriving DecidableEq
def RustOutcome.bind : RustOutcome α → (α → RustOutcome β) → RustOutcome β
  | .ok a, f => f a
  | .decodeErr m, _ => .decodeErr m
  | .crashed, _ => .crashed
/-- Wrapping `usize` subtraction: release-mode semantics of `a - b` on a
64-bit target (for list lengths, `a < 2 ^ 64` always holds).  In debug mode
the underflow itself panics; with this wrapping model the subsequent slice
bound check fails instead, so both modes end in the `crashed` outcome. -/
def usizeSub (a b : Nat) : Nat :=
  (a + 2 ^ 64 - b) % 2 ^ 64
/-- Rust slice expression `l[start..stop]`: panics unless
`start ≤ stop ≤ l.length`. -/
def sliceRange (l : List Nat) (start stop : Nat) : RustOutcome (List Nat) :=
  if start ≤ stop ∧ stop ≤ l.length then .ok ((l.take stop).drop start) else .crashed
/-- Embedding of `verify_payload_len` (`src/src/ripple_address_codec.rs`,
lines 70-76).  The Rust code evaluates the slice
`bytes[prefix_len..bytes.len() - CHECKSUM_LENGTH]` before any length guard,
so for inputs shorter than 5 bytes the subtraction/slice panics. -/
def verify_payload_len (bytes : List Nat) (pfxLen expected : Nat) :
    RustOutcome Unit :=
  (sliceRange bytes pfxLen (usizeSub bytes.length 4)).bind fun s =>
    if s.length = expected then .ok () else .decodeErr "verify payload length failed"
/-- Embedding of `verify_prefix`: checks `bytes.starts_with(prefix)`. -/
def verify_starts_with (pfx bytes : List Nat) : RustOutcome Unit :=
  if pfx.isPrefixOf bytes then .ok () else .decodeErr "verify prefix failed"
/-- Embedding of `verify_checksum_length`: requires at least 5 bytes. -/
def verify_checksum_length (bytes : List Nat) : RustOutcome Unit :=
  if bytes.length < 4 + 1 then .decodeErr "invalid checksum length" else .ok ()
/-- Embedding of `calc_checksum`: first four bytes of the double SHA-256;
the SHA-256 primitive itself is an external collaborator and is passed in. -/
def calc_checksum (sha : List Nat → List Nat) (bytes : List Nat) : List Nat :=
  (sha (sha bytes)).take 4
/-- Embedding of `verify_checksum`. -/
def verify_checksum (sha : List Nat → List Nat) (input checksum : List Nat) :
    RustOutcome Unit :=
  if calc_checksum sha input = checksum then .ok () else .decodeErr "varify checksum failed"
/-- Embedding of `get_checked_bytes`: checks the length, splits off the
4-byte checksum and verifies it. -/
def get_checked_bytes (sha : List Nat → List Nat) (bwc : List Nat) :
    RustOutcome (List Nat) :=
  (verify_checksum_length bwc).bind fun _ =>
    let checksum := bwc.drop (bwc.length - 4)
    let bytes := bwc.take (bwc.length - 4)
    (verify_checksum sha bytes checksum).bind fun _ => .ok bytes
/-- Embedding of `get_payload` with the `Address` settings
(`PAYLOAD_LEN = 20`, `PREFIX = [0x00]`): payload-length check first (which can
panic on short inputs), then version-byte check, then checksum check, then
the payload with the version byte stripped. -/
def get_payload (sha : List Nat → List Nat) (bytes : List Nat) :
    RustOutcome (List Nat) :=
  (verify_payload_len bytes 1 20).bind fun _ =>
  (verify_starts_with [0] bytes).bind fun _ =>
  (get_checked_bytes sha bytes).bind fun checked => .ok (checked.drop 1)
/-- Embedding of `decode_account_id` (`src/src/ripple_address_codec.rs`,
lines 101-105): base58-decode, extract the payload, and convert it to a
20-byte array (`try_into`, which fails with a `DecodeError` on any other
length). -/
def decode_account_id (sha : List Nat → List Nat) (account_id : String) :
    RustOutcome (List Nat) :=
  match b58Decode account_id with
  | none => .decodeErr "base58 decode failed"
  | some bytes =>
    (get_payload sha bytes).bind fun payload =>
      if payload.length = 20 then .ok payload
      else .decodeErr "decode_account_id failed"
/-- Model of a parsed JSON value (`serde_json::Value` restricted to the
shapes the serializer consumes).  Objects are association lists in input
order; numbers are integers (`as_u64` succeeds on the non-negative ones). -/
inductive Json where
  | str (s : String)
  | num (n : Int)
  | jbool (b : Bool)
  | obj (kvs : List (String × Json))
  | arr (elems : List Json)

/-- Model of `Value::as_str`. -/
def Json.asStr : Json → Option String
  | .str s => some s
  | _ => none

/-- Model of `Value::as_u64`. -/
def Json.asU64 : Json → Option Nat
  | .num n => if 0 ≤ n ∧ n < 2 ^ 64 then some n.toNat else none
  | _ => none

/-- Key lookup in an association list, modelling `BTreeMap::get` /
`serde_json::Map::get` (keys of a parsed JSON object are unique). -/
def lookupStr {α : Type} : List (String × α) → String → Option α
  | [], _ => none
  | (k, v) :: rest, key => if k = key then some v else lookupStr rest key

/-- External collaborators that the spec puts out of scope: the SHA-256
primitive used by the address checksum, and the `rust_decimal` string parser
used for issued-currency values.  `parseDecimal` returns the sign flag
(`true` for negative), the absolute mantissa (`value.mantissa().abs()`), and
the scale; `rust_decimal` guarantees a mantissa below `2 ^ 96` and a scale of
at most 28. -/
structure Ext where
  sha256 : List Nat → List Nat
  parseDecimal : String → Option (Bool × Nat × Nat)

/-- Model of `i64::from_str`: optional sign, one or more decimal digits,
result within the `i64` range. -/
def parseI64 (s : String) : Option Int :=
  let p : Int × List Char :=
    match s.data with
    | '+' :: rest => (1, rest)
    | '-' :: rest => (-1, rest)
    | cs => (1, cs)
  if p.2 = [] then none
  else if p.2.all (fun c => decide ('0' ≤ c ∧ c ≤ '9')) then
    let n : Nat := p.2.foldl (fun a c => a * 10 + (c.toNat - 48)) 0
    let v : Int := p.1 * n
    if -(2 ^ 63) ≤ v ∧ v < 2 ^ 63 then some v else none
  else none

def MIN_MANTISSA : Nat := 10 ^ 15

def MAX_MANTISSA : Nat := 10 ^ 16 - 1

def MIN_EXP : Int := -96

def MAX_EXP : Int := 80

/-- First normalization loop of `IssuedAmount::to_bytes`
(src/src/types/amount.rs lines 36-39): multiply the mantissa by 10 and
decrement the exponent while the mantissa is below `MIN_MANTISSA` and the
exponent is above `MIN_EXP`. -/
def normUp (m : Nat) (e : Int) : Nat × Int :=
  if m < MIN_MANTISSA ∧ MIN_EXP < e then normUp (m * 10) (e - 1) else (m, e)
termination_by (e - MIN_EXP).toNat
decreasing_by
  simp only [MIN_EXP] at *
  omega

/-- Second normalization loop of `IssuedAmount::to_bytes`
(src/src/types/amount.rs lines 40-46): divide the mantissa by 10 and
increment the exponent while the mantissa exceeds `MAX_MANTISSA`; fail with
overflow when the exponent would exceed `MAX_EXP`. -/
def normDown (m : Nat) (e : Int) : Option (Nat × Int) :=
  if MAX_MANTISSA < m then
    if MAX_EXP ≤ e then none
    else normDown (m / 10) (e + 1)
  else some (m, e)
termination_by m
decreasing_by
  have hm : 0 < m := by
    simp only [MAX_MANTISSA] at *
    omega
  exact Nat.div_lt_self hm (by norm_num)

/-- The canonical zero issued-amount header `0x8000000000000000`
(`IssuedAmount::canonical_zero_serial`). -/
def canonicalZero : List Nat := [128, 0, 0, 0, 0, 0, 0, 0]

/-- Embedding of `IssuedAmount::to_bytes` (src/src/types/amount.rs lines
26-61) as a function of the parsed decimal value: `neg` is the sign flag,
`m` the absolute mantissa and `scale` the scale of the `rust_decimal` value;
the initial exponent is `-scale` (`overflowing_neg` of the scale, exact since
the scale is at most 28). -/
def issuedCore (neg : Bool) (m : Nat) (scale : Nat) : Option (List Nat) :=
  if m = 0 then some canonicalZero
  else
    let p := normUp m (-(scale : Int))
    match normDown p.1 p.2 with
    | none => none
    | some (M, E) =>
      if E < MIN_EXP ∨ M < MIN_MANTISSA then some canonicalZero
      else if MAX_EXP < E ∨ MAX_MANTISSA < M then none
      else
        let sign : Nat := if neg then 0 else 2 ^ 62
        some (beBytes 8 (2 ^ 63 ||| sign ||| (E + 97).toNat <<< 54 ||| M))

/-- Embedding of `IssuedAmount::to_bytes` from the value string: parse with
the external `rust_decimal` parser, then normalize and pack. -/
def issuedAmountToBytes (ext : Ext) (strnum : String) : Option (List Nat) :=
  match ext.parseDecimal strnum with
  | none => none
  | some (neg, m, scale) => issuedCore neg m scale

/-- Character class of the `regex_currency_code_iso_4217` regular expression
(src/src/types/amount.rs line 22). -/
def isIso4217Char (c : Char) : Bool :=
  decide (('A' ≤ c ∧ c ≤ 'Z') ∨ ('a' ≤ c ∧ c ≤ 'z') ∨ ('0' ≤ c ∧ c ≤ '9') ∨
    c ∈ ['?', '!', '@', '#', '$', '%', '^', '&', '*', '<', '>', '(', ')',
      Char.ofNat 123, Char.ofNat 125, '[', ']', '|'])

/-- Model of `regex_currency_code_iso_4217`: exactly three characters of the
allowed class. -/
def regexIso4217 (s : String) : Bool :=
  (s.data.length == 3) && s.data.all isIso4217Char

/-- Model of `regex_currency_code_hex`: exactly forty hex digits. -/
def regexHex40 (s : String) : Bool :=
  (s.data.length == 40) && s.data.all (fun c => (hexDigit c).isSome)

/-- Embedding of `currency_code_to_bytes` (src/src/types/amount.rs lines
87-108); the `AsciiStr::from_ascii` step fails on non-ASCII input. -/
def currency_code_to_bytes (input : String) (xrp_ok : Bool) : Option (List Nat) :=
  if regexIso4217 input then
    if input = "XRP" then
      if xrp_ok then some (List.replicate 20 0) else none
    else if input.data.all (fun c => c.toNat < 128) then
      some (List.replicate 12 0 ++ input.data.map Char.toNat ++ List.replicate 5 0)
    else none
  else if regexHex40 input then hexDecode input
  else none

/-- String comparison used by `keys.sort()` in the issued-amount branch
(Rust `Ord` on `String`; UTF-8 byte order coincides with the codepoint order
used by Lean). -/
def strLeB (a b : String) : Bool :=
  decide (a ≤ b)

/-- Embedding of `Amount::to_bytes` (src/src/types/amount.rs lines 145-188).
The native branch parses the string as `i64`: values in `[0, 10^17]` get bit
62 set (`|= 0x4000_0000_0000_0000`), values in `[-10^17, 0)` are negated, and
any other parsed value is passed through unchanged; the output is the 8-byte
big-endian two's-complement pattern.  The issued branch requires the sorted
key list of the object to start with `currency`, `issuer`, `value`. -/
def amount_to_bytes (ext : Ext) (v : Json) : Option (List Nat) :=
  match v with
  | Json.str s =>
    (match parseI64 s with
     | some amount =>
        let a1 : Int :=
          if 0 ≤ amount ∧ amount ≤ 10 ^ 17 then
            Int.ofNat (amount.toNat ||| 2 ^ 62)
          else amount
        let a2 : Int := if a1 < 0 ∧ -10 ^ 17 ≤ a1 then -a1 else a1
        some (beBytes 8 (a2 % 2 ^ 64).toNat)
     | none => none)
  | Json.obj kvs =>
    (let keys := (kvs.map Prod.fst).mergeSort strLeB
     match keys.get? 0, keys.get? 1, keys.get? 2 with
     | some c, some i, some vv =>
        if c = "currency" ∧ i = "issuer" ∧ vv = "value" then
          match lookupStr kvs "value" with
          | some valJson =>
            (match valJson.asStr with
             | none => none
             | some strnum =>
              match issuedAmountToBytes ext strnum with
              | none => none
              | some header =>
                match lookupStr kvs c with
                | none => none
                | some curJson =>
                  match curJson.asStr with
                  | none => none
                  | some currency =>
                    match currency_code_to_bytes currency false with
                    | none => none
                    | some curBytes =>
                      match lookupStr kvs i with
                      | none => none
                      | some issJson =>
                        match issJson.asStr with
                        | none => none
                        | some addr =>
                          match decode_account_id ext.sha256 addr with
                          | RustOutcome.ok address =>
                              some (header ++ curBytes ++ address)
                          | _ => none)
          | none => none
        else none
     | _, _, _ => none)
  | _ => none

/-- Embedding of `hash_to_bytes` (src/src/types/bytes.rs lines 27-35; the
same code is `Hash::to_bytes` in src/src/types/hash.rs).  The expected
length `len` is a `u8` (the callers pass 16, 20 or 32); the decoded length is
narrowed with `decoded.len() as u8` before the comparison, hence the
`% 256`. -/
def hash_to_bytes (v : Json) (len : Nat) : Option (List Nat) :=
  match v.asStr with
  | none => none
  | some s =>
    match hexDecode s with
    | none => none
    | some decoded =>
      if decoded.length % 256 = len then some decoded else none

/-- Embedding of `blob_to_bytes` (src/src/types/bytes.rs lines 37-43):
hex-decode, then VL-encode. -/
def blob_to_bytes (v : Json) : Option (List Nat) :=
  match v.asStr with
  | none => none
  | some s =>
    match hexDecode s with
    | some bytes => vl_encode bytes
    | none => none

/-- Embedding of `Account::to_bytes` / `account_id_to_bytes`
(src/src/types/account.rs lines 88-92): decode the base58 address and
VL-encode the 20-byte payload.  The `.ok()?` turns a `DecodeError` into
`None`; a panic inside `decode_account_id` would instead abort (that path is
unreachable for well-formed addresses and is analysed separately with
`decode_account_id`). -/
def account_id_to_bytes (ext : Ext) (v : Json) : Option (List Nat) :=
  match v.asStr with
  | none => none
  | some s =>
    match decode_account_id ext.sha256 s with
    | RustOutcome.ok payload => vl_encode payload
    | _ => none

/-- Embedding of the body of one step of `PathSet::path_as_bytes`
(src/src/types/path_set.rs lines 75-107).  The keys are tested in the order
`account`, `currency`, `issuser` — the last one misspelled exactly as in the
source.  A step that is not an object, or has none of the keys, or whose
decode fails, contributes no bytes (`some []`); a matched value that is not a
string aborts the whole path (`as_str()?`, the `none` outcome). -/
def path_step_bytes (ext : Ext) (step : Json) : Option (List Nat) :=
  match step with
  | Json.obj kvs =>
    (match lookupStr kvs "account" with
     | some av =>
       (match av.asStr with
        | none => none
        | some s =>
          match decode_account_id ext.sha256 s with
          | RustOutcome.ok data => some (1 :: data)
          | _ => some [])
     | none =>
       match lookupStr kvs "currency" with
       | some cv =>
         (match cv.asStr with
          | none => none
          | some s =>
            match currency_code_to_bytes s true with
            | some data => some (16 :: data)
            | none => some [])
       | none =>
         match lookupStr kvs "issuser" with
         | some iv =>
           (match iv.asStr with
            | none => none
            | some s =>
              match decode_account_id ext.sha256 s with
              | RustOutcome.ok data => some (32 :: data)
              | _ => some [])
         | none => some [])
  | _ => some []

/-- Step loop of `PathSet::path_as_bytes`: concatenates the step encodings,
propagating the `as_str()?` failure. -/
def path_steps (ext : Ext) : List Json → Option (List Nat)
  | [] => some []
  | st :: rest =>
    match path_step_bytes ext st with
    | none => none
    | some bs =>
      match path_steps ext rest with
      | none => none
      | some rs => some (bs ++ rs)

/-- Embedding of `PathSet::path_as_bytes` (src/src/types/path_set.rs lines
72-112): requires an array of steps. -/
def path_as_bytes (ext : Ext) (path : Json) : Option (List Nat) :=
  match path with
  | Json.arr steps => path_steps ext steps
  | _ => none

/-- Path loop of `PathSet::to_bytes` (src/src/types/path_set.rs lines 52-63):
a path whose encoding fails is silently skipped, but its separator byte is
still emitted; `0xff` separates paths and `0x00` terminates the last one. -/
def pathset_paths (ext : Ext) : List Json → List Nat
  | [] => []
  | p :: rest =>
    (match path_as_bytes ext p with
     | some bs => bs
     | none => []) ++
    (match rest with
     | [] => [0]
     | _ :: _ => [255]) ++
    pathset_paths ext rest

/-- Embedding of `PathSet::to_bytes` (src/src/types/path_set.rs lines
49-67). -/
def pathset_to_bytes (ext : Ext) (v : Json) : Option (List Nat) :=
  match v with
  | Json.arr paths => some (pathset_paths ext paths)
  | _ => none

/-- Per-field catalog metadata (`DefinitionField`,
src/src/types/definition.rs lines 14-24). -/
structure DefinitionField where
  nth : Int
  is_vl_encoded : Bool
  is_serialized : Bool
  is_signing_field : Bool
  type_name : String
deriving DecidableEq

/-- The catalog parsed once from the static `definitions.json` document
(`Definitions`, src/src/types/definition.rs lines 29-36); each table is an
association list with unique keys. -/
structure Definitions where
  types : List (String × Int)
  ledger_entry_types : List (String × Int)
  fields : List (String × DefinitionField)
  transaction_results : List (String × Int)
  transaction_types : List (String × Int)

/-- Embedding of `DefinitionFields::get_field_sort_key`
(src/src/definition_fields.rs lines 70-86): `(-1, -1)` when the field or its
declared type is unknown. -/
def get_field_sort_key (d : Definitions) (field_name : String) : Int × Int :=
  match lookupStr d.fields field_name with
  | some fd =>
    (match lookupStr d.types fd.type_name with
     | some t => (t, fd.nth)
     | none => (-1, -1))
  | none => (-1, -1)

/-- The comparator of `keys.sort_by` in `ordering_fields`: the `Ordering`
produced by comparing the first components and, on a tie, the second, i.e.
the lexicographic order on sort keys. -/
def sortKeyLe (d : Definitions) (a b : String) : Bool :=
  decide ((get_field_sort_key d a).1 < (get_field_sort_key d b).1 ∨
    ((get_field_sort_key d a).1 = (get_field_sort_key d b).1 ∧
      (get_field_sort_key d a).2 ≤ (get_field_sort_key d b).2))

/-- Embedding of `DefinitionFields::ordering_fields`
(src/src/definition_fields.rs lines 102-118).  Rust `sort_by` is a stable
sort; `List.mergeSort` is the stable sort with the same comparator. -/
def ordering_fields (d : Definitions) (fields : List String) : List String :=
  fields.mergeSort (sortKeyLe d)

/-- Embedding of `DefinitionFields::get_field_id`
(src/src/definition_fields.rs lines 205-212). -/
def get_field_id (d : Definitions) (field_name : String) : Option (List Nat) :=
  match lookupStr d.fields field_name with
  | none => none
  | some fd =>
    match lookupStr d.types fd.type_name with
    | none => none
    | some t => some (cal_field_id fd.nth t)

theorem lookupStr_sizeOf {α : Type} [SizeOf α] :
    ∀ (l : List (String × α)) (k : String) (v : α),
      lookupStr l k = some v → sizeOf v < sizeOf l := by
  intro l k v h
  induction l with
  | nil => simp [lookupStr] at h
  | cons p rest ih =>
      obtain ⟨pk, pv⟩ := p
      by_cases hk : pk = k
      · simp only [lookupStr, if_pos hk] at h
        cases h
        simp only [List.cons.sizeOf_spec, Prod.mk.sizeOf_spec]
        omega
      · simp only [lookupStr, if_neg hk] at h
        have := ih h
        simp only [List.cons.sizeOf_spec, Prod.mk.sizeOf_spec]
        omega

/-- Model of the big-endian `u16` write `buf.put_u16` used for the
`TransactionType` code. -/
def be16 (n : Nat) : List Nat := beBytes 2 n

mutual

/-- Embedding of `DefinitionFields::field_to_bytes`
(src/src/definition_fields.rs lines 249-312): field-id bytes, the
`TransactionType` special case (the code must deserialize as `u16`), then
dispatch on the catalog type name. -/
def field_to_bytes (ext : Ext) (d : Definitions) (field_name : String)
    (field_val : Json) : Option (List Nat) :=
  match lookupStr d.fields field_name with
  | none => none
  | some fd =>
    match get_field_id d field_name with
    | none => none
    | some fid =>
      if field_name = "TransactionType" then
        match field_val.asStr with
        | none => none
        | some s =>
          match lookupStr d.transaction_types s with
          | none => none
          | some code =>
            if 0 ≤ code ∧ code < 2 ^ 16 then some (fid ++ be16 code.toNat)
            else none
      else
        match
          (if fd.type_name = "AccountID" then account_id_to_bytes ext field_val
           else if fd.type_name = "Amount" then amount_to_bytes ext field_val
           else if fd.type_name = "Blob" then blob_to_bytes field_val
           else if fd.type_name = "Hash128" then hash_to_bytes field_val 16
           else if fd.type_name = "Hash160" then hash_to_bytes field_val 20
           else if fd.type_name = "Hash256" then hash_to_bytes field_val 32
           else if fd.type_name = "PathSet" then pathset_to_bytes ext field_val
           else if fd.type_name = "STArray" then array_to_bytes ext d field_val
           else if fd.type_name = "STObject" then object_to_bytes ext d field_val
           else if fd.type_name = "UInt8" then
             (field_val.asU64).map (fun n => beBytes 1 n)
           else if fd.type_name = "UInt16" then
             (field_val.asU64).map (fun n => beBytes 2 n)
           else if fd.type_name = "UInt32" then
             (field_val.asU64).map (fun n => beBytes 4 n)
           else none) with
        | none => none
        | some slice => some (fid ++ slice)
termination_by (sizeOf field_val, 1, 0)

/-- Embedding of `array_to_bytes` (src/src/types/bytes.rs lines 45-64; the
same structure is `STArray::to_bytes` in src/src/types/starray.rs lines
41-59): elements whose encoding fails are silently skipped, and the
`ArrayEndMarker` field id is appended when it resolves. -/
def array_to_bytes (ext : Ext) (d : Definitions) (v : Json) : Option (List Nat) :=
  match v with
  | Json.arr elems =>
    some (array_elems ext d elems ++
      (match get_field_id d "ArrayEndMarker" with
       | some m => m
       | none => []))
  | Json.str _ => none
  | Json.num _ => none
  | Json.jbool _ => none
  | Json.obj _ => none
termination_by (sizeOf v, 0, 0)

/-- One element of the `array_to_bytes` loop: an element that is an object
is encoded as a field named by its first wrapper key (`wrapper_keys[0]`; the
Rust code would panic on an element that is an empty object — no claim
touches that case and the theorems below exclude it); a failed encoding, or
a non-object element, contributes nothing. -/
def array_elem_one (ext : Ext) (d : Definitions) (el : Json) : List Nat :=
  match el with
  | Json.obj kvs =>
    (match kvs.head? with
     | none => []
     | some (k, _) =>
       match field_to_bytes ext d k (Json.obj kvs) with
       | some bs => bs
       | none => [])
  | Json.str _ => []
  | Json.num _ => []
  | Json.jbool _ => []
  | Json.arr _ => []
termination_by (sizeOf el, 2, 0)
decreasing_by
  all_goals
    apply Prod.Lex.right
    apply Prod.Lex.left
    omega

/-- Element loop of `array_to_bytes`. -/
def array_elems (ext : Ext) (d : Definitions) (elems : List Json) : List Nat :=
  match elems with
  | [] => []
  | el :: rest => array_elem_one ext d el ++ array_elems ext d rest
termination_by (sizeOf elems, 0, 2)
decreasing_by
  all_goals
    apply Prod.Lex.left
    simp only [List.cons.sizeOf_spec]
    omega

/-- Embedding of `object_to_bytes` (src/src/types/bytes.rs lines 66-89; the
same structure is `STObject::to_bytes` in src/src/types/stobject.rs): the
single wrapper key's inner object is serialized field by field in canonical
order, and the `ObjectEndMarker` field id is appended (failing if it does not
resolve).  As with arrays, the Rust code would panic on an empty outer
object; that case is modelled as failure and excluded by the theorems. -/
def object_to_bytes (ext : Ext) (d : Definitions) (v : Json) : Option (List Nat) :=
  match v with
  | Json.obj kvs =>
    (match kvs.head? with
     | none => none
     | some (k0, _) =>
       match hin : lookupStr kvs k0 with
       | some (Json.obj inner) =>
         (match object_fields ext d inner (ordering_fields d (inner.map Prod.fst)) with
          | none => none
          | some body =>
            match get_field_id d "ObjectEndMarker" with
            | none => none
            | some marker => some (body ++ marker))
       | _ => none)
  | Json.str _ => none
  | Json.num _ => none
  | Json.jbool _ => none
  | Json.arr _ => none
termination_by (sizeOf v, 0, 0)
decreasing_by
  all_goals
    have h1 := lookupStr_sizeOf _ _ _ hin
    simp only [Json.obj.sizeOf_spec] at h1 ⊢
    omega

/-- One field of the `object_to_bytes` loop: look the value up in the inner
object (`?`) and encode it (`?`). -/
def object_field_one (ext : Ext) (d : Definitions) (inner : List (String × Json))
    (name : String) : Option (List Nat) :=
  match hv : lookupStr inner name with
  | none => none
  | some v => field_to_bytes ext d name v
termination_by (sizeOf inner, 0, 0)
decreasing_by
  apply Prod.Lex.left
  exact lookupStr_sizeOf _ _ _ hv

/-- Field loop of `object_to_bytes`: for each name in canonical order whose
catalog entry has `isSerialized`, look the value up and encode it,
propagating failures. -/
def object_fields (ext : Ext) (d : Definitions) (inner : List (String × Json))
    (order : List String) : Option (List Nat) :=
  match order with
  | [] => some []
  | name :: rest =>
    if (match lookupStr d.fields name with
        | some fd => fd.is_serialized
        | none => false) then
      match object_field_one ext d inner name with
      | none => none
      | some bs =>
        match object_fields ext d inner rest with
        | none => none
        | some rs => some (bs ++ rs)
    else object_fields ext d inner rest
termination_by (sizeOf inner, 0, order.length + 1)
decreasing_by
  all_goals
    first
      | (apply Prod.Lex.right
         apply Prod.Lex.right
         omega)
      | (apply Prod.Lex.right
         apply Prod.Lex.right
         simp only [List.length_cons]
         omega)

end

/-- Field loop of `serialize_tx` (src/src/serialize.rs lines 62-73): for each
field name in canonical order, resolve the catalog entry (the `?` on
`get_definition_field` — an unknown field aborts the whole serialization),
skip fields that are not serialized and, when signing, not signing fields,
otherwise look the value up and encode it, aborting on the first failure. -/
def serialize_fields (ext : Ext) (d : Definitions) (tx : List (String × Json))
    (for_signing : Bool) : List String → Option (List Nat)
  | [] => some []
  | name :: rest =>
    match lookupStr d.fields name with
    | none => none
    | some fd =>
      if fd.is_serialized then
        if for_signing ∧ ¬ fd.is_signing_field then
          serialize_fields ext d tx for_signing rest
        else
          match lookupStr tx name with
          | none => none
          | some v =>
            match field_to_bytes ext d name v with
            | none => none
            | some bs =>
              match serialize_fields ext d tx for_signing rest with
              | none => none
              | some rs => some (bs ++ rs)
      else serialize_fields ext d tx for_signing rest

/-- Embedding of `serialize_tx` (src/src/serialize.rs lines 49-77), taken on
the parsed transaction object (JSON parsing and the final uppercase hex
stringification are out-of-scope external steps; the result is the byte
buffer).  The object is an association list of its keys in input order. -/
def serialize_tx (ext : Ext) (d : Definitions) (tx : List (String × Json))
    (for_signing : Bool) : Option (List Nat) :=
  serialize_fields ext d tx for_signing (ordering_fields d (tx.map Prod.fst))

/-- Specification predicate: a field passes the emission filter of
`serialize_tx` iff its catalog entry exists, is flagged serialized, and — when
signing — is flagged as a signing field. -/
def emittedFilter (d : Definitions) (for_signing : Bool) (name : String) : Bool :=
  match lookupStr d.fields name with
  | some fd => fd.is_serialized && (!for_signing || fd.is_signing_field)
  | none => false

/-- Specification relation: strictly ascending order on the canonical sort
keys of two field names. -/
def sortKeyLt (d : Definitions) (a b : String) : Prop :=
  (get_field_sort_key d a).1 < (get_field_sort_key d b).1 ∨
  ((get_field_sort_key d a).1 = (get_field_sort_key d b).1 ∧
    (get_field_sort_key d a).2 < (get_field_sort_key d b).2)

/-- Modelled from the spec: a fragment of the static `definitions.json`
catalog, which ships as a fixture outside the source tree (`include_str` of
`fixtures/definitions.json`).  The codes follow the field-id table and
ordering vector of the spec (TransactionType `12`, Flags `22`, Sequence `24`,
TxnSignature `74`, Account `81`, Memo `EA`, ObjectEndMarker `E1`,
ArrayEndMarker `F1`) and its TYPES/FIELDS shape; it is used only to
instantiate witnesses and counterexamples. -/
def defsTest : Definitions where
  types := [("Unknown", -2), ("UInt16", 1), ("UInt32", 2), ("Hash256", 5),
    ("Amount", 6), ("Blob", 7), ("AccountID", 8), ("STObject", 14),
    ("STArray", 15), ("PathSet", 16)]
  ledger_entry_types := []
  fields := [
    ("TransactionType",
      ⟨2, false, true, true, "UInt16"⟩),
    ("Flags", ⟨2, false, true, true, "UInt32"⟩),
    ("Sequence", ⟨4, false, true, true, "UInt32"⟩),
    ("hash", ⟨257, false, false, false, "Hash256"⟩),
    ("TxnSignature", ⟨4, true, true, false, "Blob"⟩),
    ("Account", ⟨1, true, true, true, "AccountID"⟩),
    ("Memo", ⟨10, false, true, true, "STObject"⟩),
    ("Memos", ⟨9, false, true, true, "STArray"⟩),
    ("Paths", ⟨1, false, true, true, "PathSet"⟩),
    ("ObjectEndMarker", ⟨1, false, true, true, "STObject"⟩),
    ("ArrayEndMarker", ⟨1, false, true, true, "STArray"⟩)]
  transaction_results := []
  transaction_types := [("Payment", 0)]

/-- A concrete instantiation of the external collaborators for witnesses: a
constant hash function and a decimal parser that accepts only the string
`12.123` (as `rust_decimal` would parse it: mantissa 12123, scale 3). -/
def extTest : Ext where
  sha256 := fun _ => List.replicate 32 0
  parseDecimal := fun s => if s = "12.123" then some (false, 12123, 3) else none

/-! ## Theorems -/
@[simp] theorem beBytes_length (k v : Nat) : (beBytes k v).length = k := by
  induction k generalizing v with
  | zero => rfl
  | succ k ih => simp [beBytes, ih]
theorem hexDecodeList_replicate_zero (n : Nat) :
    hexDecodeList (List.replicate (2 * n) '0') = some (List.replicate n 0) := by
  induction n with
  | zero => rfl
  | succ n ih =>
      have h2 : 2 * (n + 1) = (2 * n) + 1 + 1 := by omega
      rw [h2, List.replicate_succ, List.replicate_succ, List.replicate_succ]
      simp [hexDecodeList, ih, hexDigit, bind, Option.bind]
theorem shiftLor_small : ∀ a < 16, ∀ b < 16, (a <<< 4 % 2 ^ 32 ||| b) % 256 = 16 * a + b := by
  decide
theorem shift4_small : ∀ a < 16, a <<< 4 % 2 ^ 32 % 256 = 16 * a := by
  decide
/-- C8 (amended): `vl_encode` prepends the claimed 1-, 2- or 3-byte prefix and
fails above 918744 — for contents shorter than `2 ^ 32`; longer contents have
their length truncated by the `as u32` cast before bucketing (see
`vl_encode_wrap_cex`). -/
theorem vl_encode_buckets (input : List Nat) (h : input.length < 2 ^ 32) :
    (input.length ≤ 192 → vl_encode input = some (input.length :: input)) ∧
    (193 ≤ input.length → input.length ≤ 12480 →
      vl_encode input =
        some ((193 + (input.length - 193) / 2 ^ 8) ::
          (input.length - 193) % 2 ^ 8 :: input)) ∧
    (12481 ≤ input.length → input.length ≤ 918744 →
      vl_encode input =
        some ((241 + (input.length - 12481) / 2 ^ 16) ::
          (input.length - 12481) / 2 ^ 8 % 2 ^ 8 ::
          (input.length - 12481) % 2 ^ 8 :: input)) ∧
    (918744 < input.length → vl_encode input = none) := by
  have h32 : (2 : Nat) ^ 32 = 4294967296 := by norm_num
  have h8 : (2 : Nat) ^ 8 = 256 := by norm_num
  have h16 : (2 : Nat) ^ 16 = 65536 := by norm_num
  have hmod : input.length % 2 ^ 32 = input.length := Nat.mod_eq_of_lt h
  refine ⟨fun h1 => ?_, fun h1 h2 => ?_, fun h1 h2 => ?_, fun h1 => ?_⟩
  · simp only [vl_encode, hmod, if_pos h1]
    have e : input.length % 256 = input.length := Nat.mod_eq_of_lt (by omega)
    rw [e]
  · have hn : ¬ input.length ≤ 192 := by omega
    simp only [vl_encode, hmod, if_neg hn, if_pos h2, h8]
    have e1 : ((input.length - 193) / 256 + 193) % 256 =
        193 + (input.length - 193) / 256 := by omega
    have e2 : (input.length - 193) % 256 % 256 = (input.length - 193) % 256 := by omega
    rw [e1, e2]
  · have hn1 : ¬ input.length ≤ 192 := by omega
    have hn2 : ¬ input.length ≤ 12480 := by omega
    simp only [vl_encode, hmod, if_neg hn1, if_neg hn2, if_pos h2, h8, h16]
    have e1 : (241 + (input.length - 12481) / 65536) % 256 =
        241 + (input.length - 12481) / 65536 := by omega
    have e2 : (input.length - 12481) / 256 % 256 % 256 =
        (input.length - 12481) / 256 % 256 := by omega
    have e3 : (input.length - 12481) % 256 % 256 = (input.length - 12481) % 256 := by omega
    rw [e1, e2, e3]
  · have hn1 : ¬ input.length ≤ 192 := by omega
    have hn2 : ¬ input.length ≤ 12480 := by omega
    have hn3 : ¬ input.length ≤ 918744 := by omega
    simp only [vl_encode, hmod, if_neg hn1, if_neg hn2, if_neg hn3]
theorem vl_encode_buckets_witness :
    ([1, 2, 3] : List Nat).length < 2 ^ 32 ∧
    (([1, 2, 3] : List Nat).length ≤ 192 →
      vl_encode [1, 2, 3] = some (([1, 2, 3] : List Nat).length :: [1, 2, 3])) :=
  ⟨by norm_num, (vl_encode_buckets [1, 2, 3] (by norm_num)).1⟩
/-- C8 counterexample: at content length exactly `2 ^ 32` (which is greater
than 918744) the `as u32` cast wraps the length to 0, so `vl_encode` succeeds
with a 1-byte zero prefix instead of failing. -/
theorem vl_encode_wrap_cex :
    918744 < (List.replicate (2 ^ 32) 0 : List Nat).length ∧
    vl_encode (List.replicate (2 ^ 32) 0) = some (0 :: List.replicate (2 ^ 32) 0) := by
  have key : ∀ l : List Nat, l.length = 2 ^ 32 →
      918744 < l.length ∧ vl_encode l = some (0 :: l) := by
    intro l hl
    constructor
    · rw [hl]
      norm_num
    · simp only [vl_encode]
      rw [hl]
      norm_num
  exact key _ (List.length_replicate ..)
/-- C9: the field-id encoder emits one byte `(t <<< 4) ||| f` when both codes
are below 16, two bytes `f` then `t` when only the type code is at least 16,
two bytes `t <<< 4` then `f` when only the field code is at least 16, and
three bytes `0, t, f` when both are, for codes fitting in an unsigned byte. -/
theorem cal_field_id_cases (f t : Int)
    (hf0 : 0 ≤ f) (hf : f ≤ 255) (ht0 : 0 ≤ t) (ht : t ≤ 255) :
    (t < 16 → f < 16 → cal_field_id f t = [(16 * t + f).toNat]) ∧
    (16 ≤ t → f < 16 → cal_field_id f t = [f.toNat, t.toNat]) ∧
    (t < 16 → 16 ≤ f → cal_field_id f t = [(16 * t).toNat, f.toNat]) ∧
    (16 ≤ t → 16 ≤ f → cal_field_id f t = [0, t.toNat, f.toNat]) := by
  have hfm : (f % 2 ^ 32).toNat = f.toNat := by
    rw [Int.emod_eq_of_lt hf0 (by omega)]
  have htm : (t % 2 ^ 32).toNat = t.toNat := by
    rw [Int.emod_eq_of_lt ht0 (by omega)]
  have hfb : f.toNat ≤ 255 := by omega
  have htb : t.toNat ≤ 255 := by omega
  refine ⟨fun h1 h2 => ?_, fun h1 h2 => ?_, fun h1 h2 => ?_, fun h1 h2 => ?_⟩
  · simp only [cal_field_id, hfm, htm, if_pos (And.intro h1 h2)]
    rw [shiftLor_small t.toNat (by omega) f.toNat (by omega)]
    congr 1
    omega
  · have hn : ¬ (t < 16 ∧ f < 16) := by omega
    simp only [cal_field_id, hfm, htm, if_neg hn, if_pos (And.intro h1 h2)]
    rw [Nat.mod_eq_of_lt (by omega), Nat.mod_eq_of_lt (by omega)]
  · have hn1 : ¬ (t < 16 ∧ f < 16) := by omega
    have hn2 : ¬ (16 ≤ t ∧ f < 16) := by omega
    simp only [cal_field_id, hfm, htm, if_neg hn1, if_neg hn2, if_pos (And.intro h1 h2)]
    rw [shift4_small t.toNat (by omega), Nat.mod_eq_of_lt (by omega)]
    congr 1
    omega
  · have hn1 : ¬ (t < 16 ∧ f < 16) := by omega
    have hn2 : ¬ (16 ≤ t ∧ f < 16) := by omega
    have hn3 : ¬ (t < 16 ∧ 16 ≤ f) := by omega
    simp only [cal_field_id, hfm, htm, if_neg hn1, if_neg hn2, if_neg hn3]
    rw [Nat.mod_eq_of_lt (by omega), Nat.mod_eq_of_lt (by omega)]
theorem lor_two_mul (x y c : Nat) (hc : c < 2) :
    2 * x ||| (2 * y + c) = 2 * (x ||| y) + c := by
  have h1 : 2 * x = Nat.bit false x := by simp [Nat.bit]
  have h2 : 2 * y + c = Nat.bit (decide (c = 1)) y := by
    interval_cases c <;> simp [Nat.bit]
  have h3 : 2 * (x ||| y) + c = Nat.bit (decide (c = 1)) (x ||| y) := by
    interval_cases c <;> simp [Nat.bit]
  rw [h1, h2, h3, Nat.lor_bit]
  simp
theorem two_pow_mul_lor_eq_add :
    ∀ (k : Nat) (a b : Nat), b < 2 ^ k → 2 ^ k * a ||| b = 2 ^ k * a + b := by
  intro k
  induction k with
  | zero =>
      intro a b hb
      have hb0 : b = 0 := by omega
      subst hb0
      simp
  | succ k ih =>
      intro a b hb
      have hb' : 2 * (b / 2) + b % 2 = b := by omega
      calc 2 ^ (k + 1) * a ||| b
          = 2 * (2 ^ k * a) ||| (2 * (b / 2) + b % 2) := by
            rw [hb']
            congr 1
            ring
        _ = 2 * (2 ^ k * a ||| b / 2) + b % 2 := lor_two_mul _ _ _ (by omega)
        _ = 2 * (2 ^ k * a + b / 2) + b % 2 := by rw [ih a (b / 2) (by omega)]
        _ = 2 ^ (k + 1) * a + b := by
            have hp : 2 ^ (k + 1) * a = 2 * (2 ^ k * a) := by ring
            omega
theorem lor_two_pow_of_lt (a k : Nat) (h : a < 2 ^ k) : a ||| 2 ^ k = a + 2 ^ k := by
  rw [Nat.lor_comm]
  have := two_pow_mul_lor_eq_add k 1 a (by omega)
  simpa [Nat.add_comm] using this
theorem two_pow_lor_of_lt (a k : Nat) (h : a < 2 ^ k) : 2 ^ k ||| a = 2 ^ k + a := by
  have := two_pow_mul_lor_eq_add k 1 a (by omega)
  simpa using this
theorem cal_field_id_cases_witness :
    ((0 : Int) ≤ 25 ∧ (25 : Int) ≤ 255 ∧ (0 : Int) ≤ 2 ∧ (2 : Int) ≤ 255) ∧
    ((2 : Int) < 16 → (16 : Int) ≤ 25 → cal_field_id 25 2 = [(16 * 2 : Int).toNat, (25 : Int).toNat]) :=
  ⟨by norm_num,
   (cal_field_id_cases 25 2 (by norm_num) (by norm_num) (by norm_num) (by norm_num)).2.2.1⟩
theorem decode_account_id_ok_length (sha : List Nat → List Nat) (s : String)
    (p : List Nat) (h : decode_account_id sha s = RustOutcome.ok p) :
    p.length = 20 := by
  unfold decode_account_id at h
  cases hb : b58Decode s with
  | none => rw [hb] at h; cases h
  | some bytes =>
      rw [hb] at h
      dsimp only at h
      cases hp : get_payload sha bytes with
      | ok q =>
          rw [hp] at h
          simp only [RustOutcome.bind] at h
          by_cases hl : q.length = 20
          · rw [if_pos hl] at h
            cases h
            exact hl
          · rw [if_neg hl] at h
            cases h
      | decodeErr m => rw [hp] at h; cases h
      | crashed => rw [hp] at h; cases h
/-- C7 (code bug): the one-character address string `r` base58-decodes to the
single byte `0x00`; on it `decode_account_id` panics (out-of-bounds slice in
`verify_payload_len`, whose `bytes.len() - CHECKSUM_LENGTH` is computed before
any length guard) instead of returning the `DecodeError` the claim and the
spec promise for base58-decoded strings shorter than 5 bytes. -/
theorem c7_decode_account_id_short_input_panics (sha : List Nat → List Nat) :
    b58Decode "r" = some [0] ∧ decode_account_id sha "r" = RustOutcome.crashed :=
  ⟨rfl, rfl⟩
theorem parseI64_range (s : String) (n : Int) (h : parseI64 s = some n) :
    -(2 ^ 63) ≤ n ∧ n < 2 ^ 63 := by
  simp only [parseI64] at h
  split_ifs at h with h1 h2 h3
  all_goals (cases h <;> exact h3)

/-- C5 (amended): the Hash128/Hash160/Hash256 encoder emits exactly the
hex-decoded bytes with no length prefix, and succeeds iff the decoded byte
length is congruent to the expected length (16, 20 or 32) modulo 256: the
decoded length is narrowed by `as u8` before the comparison, so lengths that
only agree modulo 256 also pass (see `c5_hash_length_wrap_cex`). -/
theorem c5_hash_to_bytes_mod256 (s : String) (len : Nat) (bs : List Nat)
    (hlen : len < 256) :
    hash_to_bytes (Json.str s) len = some bs ↔
      hexDecode s = some bs ∧ bs.length % 256 = len := by
  constructor
  · intro h
    cases hd : hexDecode s with
    | none => simp [hash_to_bytes, Json.asStr, hd] at h
    | some d =>
        simp only [hash_to_bytes, Json.asStr, hd] at h
        split_ifs at h with hc
        all_goals cases h
        refine ⟨?_, hc⟩
        first
          | rw [hd]
          | rfl
  · rintro ⟨h1, h2⟩
    simp [hash_to_bytes, Json.asStr, h1, h2]

theorem c5_hash_to_bytes_mod256_witness :
    (16 : Nat) < 256 ∧
    (hash_to_bytes (Json.str "00000000000000000000000000000000") 16 =
        some (List.replicate 16 0) ↔
      hexDecode "00000000000000000000000000000000" = some (List.replicate 16 0) ∧
        (List.replicate 16 (0 : Nat)).length % 256 = 16) :=
  ⟨by norm_num, c5_hash_to_bytes_mod256 _ 16 _ (by norm_num)⟩

set_option maxRecDepth 4000 in
/-- C5 counterexample: a 544-digit hex string decodes to 272 bytes, yet the
Hash128 encoder (expected length 16) accepts it because `272 as u8` is 16,
and returns all 272 decoded bytes; the claim requires every decoded length
other than 16 to be an error. -/
theorem c5_hash_length_wrap_cex :
    hash_to_bytes (Json.str (String.mk (List.replicate 544 '0'))) 16 =
      some (List.replicate 272 0) ∧ (272 : Nat) ≠ 16 := by
  constructor
  · have hd : hexDecode (String.mk (List.replicate 544 '0')) =
        some (List.replicate 272 0) := by
      have h := hexDecodeList_replicate_zero 272
      have h544 : 2 * 272 = 544 := by norm_num
      rw [h544] at h
      exact h
    dsimp only [hash_to_bytes, Json.asStr]
    rw [hd]
    norm_num [List.length_replicate]
  · decide

/-- C10: a native-amount string that parses as an `i64` outside the
documented range `[0, 10^17]` still encodes successfully as exactly 8 bytes.
For `-10^17 ≤ n < 0` the output is the big-endian encoding of `-n`, with
neither bit 62 nor bit 63 of the 64-bit value set; for `n > 10^17` the output
is the big-endian encoding of `n` unchanged, with no error reported. -/
theorem c10_native_amount_out_of_range (ext : Ext) (s : String) (n : Int)
    (hp : parseI64 s = some n) (ho : ¬ (0 ≤ n ∧ n ≤ 10 ^ 17)) :
    (∃ bs, amount_to_bytes ext (Json.str s) = some bs ∧ bs.length = 8) ∧
    (-10 ^ 17 ≤ n → n < 0 →
      amount_to_bytes ext (Json.str s) = some (beBytes 8 (-n).toNat) ∧
      (-n).toNat.testBit 62 = false ∧ (-n).toNat.testBit 63 = false) ∧
    (10 ^ 17 < n →
      amount_to_bytes ext (Json.str s) = some (beBytes 8 n.toNat)) := by
  have hrange := parseI64_range s n hp
  have hbody : amount_to_bytes ext (Json.str s) =
      some (beBytes 8 (((if n < 0 ∧ -10 ^ 17 ≤ n then -n else n) % 2 ^ 64).toNat)) := by
    simp only [amount_to_bytes, hp, if_neg ho]
  refine ⟨?_, fun hlo hneg => ?_, fun hhi => ?_⟩
  · exact ⟨_, hbody, beBytes_length ..⟩
  · have hc : n < 0 ∧ -10 ^ 17 ≤ n := ⟨hneg, hlo⟩
    rw [hbody, if_pos hc]
    have hmod : (-n) % 2 ^ 64 = -n := Int.emod_eq_of_lt (by omega) (by omega)
    rw [hmod]
    refine ⟨rfl, ?_, ?_⟩
    · exact Nat.testBit_lt_two_pow (by omega)
    · exact Nat.testBit_lt_two_pow (by omega)
  · have hc : ¬ (n < 0 ∧ -10 ^ 17 ≤ n) := by omega
    rw [hbody, if_neg hc]
    have hmod : n % 2 ^ 64 = n := Int.emod_eq_of_lt (by omega) (by omega)
    rw [hmod]

theorem c10_native_amount_out_of_range_witness :
    (parseI64 "-5" = some (-5) ∧ ¬ ((0 : Int) ≤ -5 ∧ (-5 : Int) ≤ 10 ^ 17)) ∧
    (∃ bs, amount_to_bytes extTest (Json.str "-5") = some bs ∧ bs.length = 8) :=
  ⟨⟨by decide, by decide⟩,
   (c10_native_amount_out_of_range extTest "-5" (-5) (by decide) (by decide)).1⟩

/-- C6 (code bug): a path step carrying only the key `issuer` emits nothing.
The code tests the keys `account`, `currency` and the misspelled `issuser`,
finds none of them, and silently drops the step, so the single-step path set
encodes to just the terminator byte `0x00` instead of `0x20` followed by the
20-byte decoded issuer id that the claim (spec §4.4) requires; §9 of the spec
itself flags the misspelling as a bug.  The second conjunct shows the same
step under the misspelled key `issuser` does emit the `0x20` tag, confirming
the lookup key is the only obstacle. -/
theorem c6_pathset_issuer_misspelled (ext : Ext) :
    pathset_to_bytes ext
        (Json.arr [Json.arr [Json.obj
          [("issuer", Json.str "rvYAfWj5gh67oV6fW32ZzP3Aw4Eubs59B")]]]) =
      some [0] ∧
    path_step_bytes extTest
        (Json.obj [("issuser", Json.str "rrrrrrrrrrrrrrrrrrrrrrrrr")]) =
      some (32 :: List.replicate 20 0) :=
  ⟨rfl, by decide⟩

theorem array_elems_nil (ext : Ext) (d : Definitions) : array_elems ext d [] = [] := by
  conv_lhs => rw [array_elems.eq_def]

theorem array_elems_cons (ext : Ext) (d : Definitions) (el : Json) (rest : List Json) :
    array_elems ext d (el :: rest) = array_elem_one ext d el ++ array_elems ext d rest := by
  conv_lhs => rw [array_elems.eq_def]

theorem array_elems_append (ext : Ext) (d : Definitions) (l1 l2 : List Json) :
    array_elems ext d (l1 ++ l2) = array_elems ext d l1 ++ array_elems ext d l2 := by
  induction l1 with
  | nil => rw [List.nil_append, array_elems_nil, List.nil_append]
  | cons el rest ih =>
      rw [List.cons_append, array_elems_cons, array_elems_cons, ih, List.append_assoc]

theorem path_steps_skip (ext : Ext) (st : Json)
    (hst : path_step_bytes ext st = some []) (s1 s2 : List Json) :
    path_steps ext (s1 ++ st :: s2) = path_steps ext (s1 ++ s2) := by
  induction s1 with
  | nil =>
      rw [List.nil_append, List.nil_append, path_steps, hst]
      cases path_steps ext s2 <;> simp
  | cons s rest ih =>
      rw [List.cons_append, List.cons_append, path_steps, path_steps, ih]

/-- C3 (amended): failures inside STArray elements and PathSet steps do NOT
abort the enclosing serialization — an element or step whose encoding fails
is silently omitted and the enclosing encoder still succeeds with the
remaining bytes.  (`?`-propagated failures elsewhere — top-level fields,
STObject children, a path-step value that is not a string — do abort.)
`hel` states that element `el` contributes no bytes (as any element whose
`field_to_bytes` fails does), `hst` that step `st` contributes no bytes (as
any step whose account/currency/issuer decode fails does). -/
theorem c3_nested_failures_skipped (ext : Ext) (d : Definitions)
    (l1 l2 : List Json) (el : Json) (s1 s2 : List Json) (st : Json)
    (hel : array_elems ext d [el] = [])
    (hst : path_step_bytes ext st = some []) :
    array_to_bytes ext d (Json.arr (l1 ++ el :: l2)) =
      array_to_bytes ext d (Json.arr (l1 ++ l2)) ∧
    (∃ bs, array_to_bytes ext d (Json.arr (l1 ++ el :: l2)) = some bs) ∧
    path_as_bytes ext (Json.arr (s1 ++ st :: s2)) =
      path_as_bytes ext (Json.arr (s1 ++ s2)) := by
  have harr : ∀ l : List Json, array_to_bytes ext d (Json.arr l) =
      some (array_elems ext d l ++
        (match get_field_id d "ArrayEndMarker" with
         | some m => m
         | none => [])) := by
    intro l
    conv_lhs => rw [array_to_bytes.eq_def]
  have hmid : array_elems ext d (l1 ++ el :: l2) = array_elems ext d (l1 ++ l2) := by
    have h1 : l1 ++ el :: l2 = (l1 ++ [el]) ++ l2 := by simp
    rw [h1, array_elems_append, array_elems_append, array_elems_append, hel,
      List.append_nil]
  refine ⟨?_, ?_, ?_⟩
  · rw [harr, harr, hmid]
  · exact ⟨_, harr _⟩
  · show path_steps ext (s1 ++ st :: s2) = path_steps ext (s1 ++ s2)
    exact path_steps_skip ext st hst s1 s2

theorem field_to_bytes_foo_none :
    field_to_bytes extTest defsTest "Foo" (Json.obj [("Foo", Json.obj [])]) = none := by
  conv_lhs => rw [field_to_bytes.eq_def]
  rfl

theorem array_elem_one_foo :
    array_elem_one extTest defsTest (Json.obj [("Foo", Json.obj [])]) = [] := by
  conv_lhs => rw [array_elem_one.eq_def]
  simp only [List.head?_cons, field_to_bytes_foo_none]

theorem array_elems_foo_nil :
    array_elems extTest defsTest [Json.obj [("Foo", Json.obj [])]] = [] := by
  rw [array_elems_cons, array_elems_nil, List.append_nil, array_elem_one_foo]

theorem c3_nested_failures_skipped_witness :
    (array_elems extTest defsTest [Json.obj [("Foo", Json.obj [])]] = [] ∧
      path_step_bytes extTest (Json.obj [("type", Json.num 1)]) = some []) ∧
    (∃ bs, array_to_bytes extTest defsTest
      (Json.arr ([] ++ Json.obj [("Foo", Json.obj [])] :: [])) = some bs) :=
  ⟨⟨array_elems_foo_nil, rfl⟩,
   (c3_nested_failures_skipped extTest defsTest [] []
      (Json.obj [("Foo", Json.obj [])]) [] [] (Json.obj [("type", Json.num 1)])
      array_elems_foo_nil rfl).2.1⟩

/-- C3 counterexample: the element `Foo` of an STArray has no catalog entry,
so its encoding fails (`field_to_bytes = none`); the claim says this must
abort the enclosing serialization, but `array_to_bytes` succeeds anyway,
returning just the `ArrayEndMarker` field id `0xF1`. -/
theorem c3_starray_failed_element_cex :
    field_to_bytes extTest defsTest "Foo" (Json.obj [("Foo", Json.obj [])]) = none ∧
    array_to_bytes extTest defsTest (Json.arr [Json.obj [("Foo", Json.obj [])]]) =
      some [241] := by
  constructor
  · exact field_to_bytes_foo_none
  · have hm : get_field_id defsTest "ArrayEndMarker" = some [241] := rfl
    conv_lhs => rw [array_to_bytes.eq_def]
    simp only [array_elems_foo_nil, hm, List.nil_append]

theorem serialize_fields_unknown_none (ext : Ext) (d : Definitions)
    (tx : List (String × Json)) (fs : Bool) :
    ∀ order : List String, (∃ k ∈ order, lookupStr d.fields k = none) →
      serialize_fields ext d tx fs order = none := by
  intro order
  induction order with
  | nil =>
      rintro ⟨k, hk, _⟩
      simp at hk
  | cons name rest ih =>
      rintro ⟨k, hk, hnone⟩
      rcases List.mem_cons.mp hk with rfl | hmem
      · simp [serialize_fields, hnone]
      · have hrest : serialize_fields ext d tx fs rest = none := ih ⟨k, hmem, hnone⟩
        cases hf : lookupStr d.fields name with
        | none => simp [serialize_fields, hf]
        | some fd =>
            simp only [serialize_fields, hf]
            split_ifs with h1 h2
            · exact hrest
            · cases hv : lookupStr tx name with
              | none => rfl
              | some v =>
                  cases hb : field_to_bytes ext d name v with
                  | none => simp only [hb]
                  | some bs => simp only [hb, hrest]
            · exact hrest

/-- C4 (amended): a top-level key with no catalog field definition is NOT
silently skipped: the `?` on the catalog lookup in the serialization loop
aborts the whole run, so `serialize_tx` returns the absent value whenever any
input key is unknown, regardless of the other keys.  (The keys that are
skipped are the known ones not flagged `isSerialized`.) -/
theorem c4_unknown_key_aborts (ext : Ext) (d : Definitions)
    (tx : List (String × Json)) (fs : Bool) (k : String)
    (hk : k ∈ tx.map Prod.fst) (hnone : lookupStr d.fields k = none) :
    serialize_tx ext d tx fs = none := by
  unfold serialize_tx
  exact serialize_fields_unknown_none ext d tx fs _
    ⟨k, by simpa [ordering_fields] using hk, hnone⟩

theorem c4_unknown_key_aborts_witness :
    ("Foo" ∈ ([("Foo", Json.num 0), ("Flags", Json.num 0)].map Prod.fst) ∧
      lookupStr defsTest.fields "Foo" = none) ∧
    serialize_tx extTest defsTest [("Foo", Json.num 0), ("Flags", Json.num 0)] false =
      none :=
  ⟨⟨by simp, by rfl⟩,
   c4_unknown_key_aborts extTest defsTest _ false "Foo" (by simp) rfl⟩

/-- C4 counterexample: on an object holding the unknown key `Foo` next to the
known serializable key `Flags`, `serialize_tx` fails outright (`none`)
instead of skipping `Foo` and returning the serialization of `Flags`. -/
theorem c4_unknown_key_cex :
    (lookupStr defsTest.fields "Foo" = none ∧
      (lookupStr defsTest.fields "Flags").isSome = true) ∧
    serialize_tx extTest defsTest [("Foo", Json.num 0), ("Flags", Json.num 0)] false =
      none := by
  refine ⟨⟨rfl, rfl⟩, ?_⟩
  unfold serialize_tx
  apply serialize_fields_unknown_none
  exact ⟨"Foo", by simp [ordering_fields], rfl⟩

theorem normUp_spec (m : Nat) (e : Int) :
    (normUp m e).2 ≤ e ∧
    (MIN_EXP ≤ e → MIN_EXP ≤ (normUp m e).2) ∧
    ¬ ((normUp m e).1 < MIN_MANTISSA ∧ MIN_EXP < (normUp m e).2) := by
  induction m, e using normUp.induct with
  | case1 m e h ih =>
      rw [normUp, if_pos h]
      refine ⟨by omega, fun _ => ?_, ih.2.2⟩
      have h2 := ih.2.1
      simp only [MIN_EXP] at *
      omega
  | case2 m e h =>
      rw [normUp, if_neg h]
      exact ⟨le_refl _, fun h2 => h2, by simpa using h⟩

theorem normDown_spec (m : Nat) (e : Int) :
    ∀ M : Nat, ∀ E : Int, normDown m e = some (M, E) →
      M ≤ MAX_MANTISSA ∧ e ≤ E ∧ (e ≤ MAX_EXP → E ≤ MAX_EXP) ∧
      (M < MIN_MANTISSA → M = m ∧ E = e) := by
  induction m, e using normDown.induct with
  | case1 m e h1 h2 =>
      intro M E h
      rw [normDown, if_pos h1, if_pos h2] at h
      cases h
  | case2 m e h1 h2 ih =>
      intro M E h
      rw [normDown, if_pos h1, if_neg h2] at h
      obtain ⟨hM, hE, hEmax, hmin⟩ := ih M E h
      refine ⟨hM, by omega, fun _ => hEmax (by simp only [MAX_EXP] at *; omega), ?_⟩
      intro hlt
      obtain ⟨rfl, rfl⟩ := hmin hlt
      simp only [MAX_MANTISSA, MIN_MANTISSA] at *
      omega
  | case3 m e h1 =>
      intro M E h
      rw [normDown, if_neg h1] at h
      cases h
      exact ⟨by omega, le_refl _, fun h2 => h2, fun _ => ⟨rfl, rfl⟩⟩

theorem issuedCore_length (neg : Bool) (m scale : Nat) (bs : List Nat)
    (h : issuedCore neg m scale = some bs) : bs.length = 8 := by
  unfold issuedCore at h
  by_cases h0 : m = 0
  · rw [if_pos h0] at h
    cases h
    rfl
  · rw [if_neg h0] at h
    dsimp only at h
    cases hnd : normDown (normUp m (-(scale : Int))).1 (normUp m (-(scale : Int))).2 with
    | none =>
        rw [hnd] at h
        cases h
    | some p =>
        obtain ⟨M, E⟩ := p
        rw [hnd] at h
        dsimp only at h
        split_ifs at h with h1 h2
        all_goals first | (cases h; rfl) | cases h

theorem hexDecodeList_length : ∀ (l : List Char) (bs : List Nat),
    hexDecodeList l = some bs → 2 * bs.length = l.length := by
  intro l
  induction l using hexDecodeList.induct with
  | case1 =>
      intro bs h
      cases h
      rfl
  | case2 c =>
      intro bs h
      cases h
  | case3 c1 c2 rest ih =>
      intro bs h
      simp only [hexDecodeList, bind, Option.bind] at h
      cases hd1 : hexDigit c1 with
      | none => rw [hd1] at h; cases h
      | some hi =>
          rw [hd1] at h
          cases hd2 : hexDigit c2 with
          | none => rw [hd2] at h; cases h
          | some lo =>
              rw [hd2] at h
              cases ht : hexDecodeList rest with
              | none => rw [ht] at h; cases h
              | some tail =>
                  rw [ht] at h
                  cases h
                  have := ih tail ht
                  simp only [List.length_cons]
                  omega

theorem currency_code_to_bytes_length (s : String) (x : Bool) (bs : List Nat)
    (h : currency_code_to_bytes s x = some bs) : bs.length = 20 := by
  unfold currency_code_to_bytes at h
  split_ifs at h with h1 h2 h3 h4 h5
  · cases h
    rfl
  · cases h
    have hlen : s.data.length = 3 := by
      simp only [regexIso4217, Bool.and_eq_true, beq_iff_eq] at h1
      exact h1.1
    simp only [List.length_append, List.length_replicate, List.length_map, hlen]
  · have hlen : s.data.length = 40 := by
      simp only [regexHex40, Bool.and_eq_true, beq_iff_eq] at h5
      exact h5.1
    have hl := hexDecodeList_length s.data bs h
    omega

theorem amount_to_bytes_obj_length (ext : Ext) (kvs : List (String × Json))
    (bs : List Nat) (h : amount_to_bytes ext (Json.obj kvs) = some bs) :
    bs.length = 48 := by
  unfold amount_to_bytes at h
  cases hk0 : ((kvs.map Prod.fst).mergeSort strLeB).get? 0 with
  | none => (simp only [hk0] at h; cases h)
  | some c =>
  cases hk1 : ((kvs.map Prod.fst).mergeSort strLeB).get? 1 with
  | none => (simp only [hk0, hk1] at h; cases h)
  | some i =>
  cases hk2 : ((kvs.map Prod.fst).mergeSort strLeB).get? 2 with
  | none => (simp only [hk0, hk1, hk2] at h; cases h)
  | some vv =>
  simp only [hk0, hk1, hk2] at h
  by_cases hc : c = "currency" ∧ i = "issuer" ∧ vv = "value"
  case neg =>
    rw [if_neg hc] at h
    cases h
  case pos =>
  rw [if_pos hc] at h
  cases hval : lookupStr kvs "value" with
  | none => (simp only [hval] at h; cases h)
  | some valJson =>
  simp only [hval] at h
  cases hvs : valJson.asStr with
  | none => (simp only [hvs] at h; cases h)
  | some strnum =>
  simp only [hvs] at h
  cases hiss : issuedAmountToBytes ext strnum with
  | none => (simp only [hiss] at h; cases h)
  | some header =>
  simp only [hiss] at h
  cases hcurj : lookupStr kvs c with
  | none => (simp only [hcurj] at h; cases h)
  | some curJson =>
  simp only [hcurj] at h
  cases hcs : curJson.asStr with
  | none => (simp only [hcs] at h; cases h)
  | some currency =>
  simp only [hcs] at h
  cases hcur : currency_code_to_bytes currency false with
  | none => (simp only [hcur] at h; cases h)
  | some curBytes =>
  simp only [hcur] at h
  cases hissj : lookupStr kvs i with
  | none => (simp only [hissj] at h; cases h)
  | some issJson =>
  simp only [hissj] at h
  cases his : issJson.asStr with
  | none => (simp only [his] at h; cases h)
  | some addr =>
  simp only [his] at h
  cases hdec : decode_account_id ext.sha256 addr with
  | ok address =>
      simp only [hdec] at h
      cases h
      have l1 : header.length = 8 := by
        unfold issuedAmountToBytes at hiss
        cases hp : ext.parseDecimal strnum with
        | none => rw [hp] at hiss; cases hiss
        | some t =>
            rw [hp] at hiss
            obtain ⟨neg, m, scale⟩ := t
            exact issuedCore_length neg m scale header hiss
      have l2 : curBytes.length = 20 := currency_code_to_bytes_length currency false curBytes hcur
      have l3 : address.length = 20 := decode_account_id_ok_length ext.sha256 addr address hdec
      simp [l1, l2, l3]
  | decodeErr m => (simp only [hdec] at h; cases h)
  | crashed => (simp only [hdec] at h; cases h)

theorem header_decompose (sign x M : Nat)
    (hsign : sign = 0 ∨ sign = 2 ^ 62) (hx : x ≤ 177) (hM : M < 2 ^ 54) :
    2 ^ 63 ||| sign ||| x <<< 54 ||| M = 2 ^ 63 + sign + x * 2 ^ 54 + M := by
  have hshift : x <<< 54 = x * 2 ^ 54 := Nat.shiftLeft_eq x 54
  have hxb : x * 2 ^ 54 < 2 ^ 62 := by
    calc x * 2 ^ 54 ≤ 177 * 2 ^ 54 := Nat.mul_le_mul_right _ hx
      _ < 2 ^ 62 := by norm_num
  obtain ⟨a, hA, hAs⟩ : ∃ a : Nat,
      2 ^ 63 ||| sign = 2 ^ 62 * a ∧ 2 ^ 63 + sign = 2 ^ 62 * a := by
    rcases hsign with rfl | rfl
    · refine ⟨2, ?_, by norm_num⟩
      rw [Nat.or_zero]
      norm_num
    · refine ⟨3, ?_, by norm_num⟩
      rw [two_pow_lor_of_lt (2 ^ 62) 63 (by norm_num)]
      norm_num
  have hfac : 2 ^ 62 * a + x * 2 ^ 54 = 2 ^ 54 * (2 ^ 8 * a + x) := by ring
  have hstep2 : 2 ^ 63 ||| sign ||| x <<< 54 ||| M =
      2 ^ 54 * (2 ^ 8 * a + x) + M := by
    rw [hA, hshift, two_pow_mul_lor_eq_add 62 a (x * 2 ^ 54) hxb, hfac,
      two_pow_mul_lor_eq_add 54 (2 ^ 8 * a + x) M hM]
  rw [hstep2, ← hfac, ← hAs]

theorem header_readback (s x M : Nat)
    (hs : s = 0 ∨ s = 2 ^ 62) (hx1 : 1 ≤ x) (hx : x ≤ 177) (hM : M < 2 ^ 54) :
    (2 ^ 63 + s + x * 2 ^ 54 + M) / 2 ^ 63 = 1 ∧
    (2 ^ 63 + s + x * 2 ^ 54 + M) / 2 ^ 62 % 2 = s / 2 ^ 62 ∧
    (2 ^ 63 + s + x * 2 ^ 54 + M) / 2 ^ 54 % 2 ^ 8 = x ∧
    (2 ^ 63 + s + x * 2 ^ 54 + M) % 2 ^ 54 = M := by
  rcases hs with rfl | rfl <;> refine ⟨by omega, by omega, by omega, by omega⟩

/-- C2: for every issued-currency amount with nonzero decimal value (absolute
mantissa `m ≠ 0`, scale ≤ 28 as `rust_decimal` guarantees), the encoder
produces exactly the normalization computed by the two loops `normUp`
(multiply by 10 / decrement the exponent while the mantissa is below `10^15`
and the exponent above `-96`) and `normDown` (divide by 10 / increment while
above `10^16 - 1`, failing if the exponent would exceed 80): when `normDown`
fails the encoder fails; when the normalized mantissa `M` is below `10^15`
the exponent is at its `-96` minimum and the canonical zero header is
emitted; otherwise `10^15 ≤ M ≤ 10^16 - 1`, `-96 ≤ E ≤ 80`, and the 8-byte
header carries bit 63, the sign at bit 62, `E + 97` in bits 61-54 and `M`
in bits 53-0.  Moreover every successful issued-currency `Amount` encoding
(header ‖ currency ‖ issuer) is exactly 48 bytes. -/
theorem c2_issued_amount_normalization (neg : Bool) (m scale : Nat)
    (hm : m ≠ 0) (hscale : scale ≤ 28) :
    (normDown (normUp m (-(scale : Int))).1 (normUp m (-(scale : Int))).2 = none →
      issuedCore neg m scale = none) ∧
    (∀ M : Nat, ∀ E : Int,
      normDown (normUp m (-(scale : Int))).1 (normUp m (-(scale : Int))).2 =
        some (M, E) →
      (M < 10 ^ 15 → issuedCore neg m scale = some canonicalZero ∧ E = -96) ∧
      (10 ^ 15 ≤ M →
        M ≤ 10 ^ 16 - 1 ∧ -96 ≤ E ∧ E ≤ 80 ∧
        ∃ H : Nat,
          issuedCore neg m scale = some (beBytes 8 H) ∧
          (beBytes 8 H).length = 8 ∧
          H = 2 ^ 63 + (if neg then 0 else 2 ^ 62) + (E + 97).toNat * 2 ^ 54 + M ∧
          H / 2 ^ 63 = 1 ∧ H / 2 ^ 62 % 2 = (if neg then 0 else 1) ∧
          H / 2 ^ 54 % 2 ^ 8 = (E + 97).toNat ∧ H % 2 ^ 54 = M)) ∧
    (∀ (ext : Ext) (kvs : List (String × Json)) (bs : List Nat),
      amount_to_bytes ext (Json.obj kvs) = some bs → bs.length = 48) := by
  have hup := normUp_spec m (-(scale : Int))
  refine ⟨fun hnd => ?_, fun M E hnd => ?_, fun ext kvs bs h => amount_to_bytes_obj_length ext kvs bs h⟩
  · unfold issuedCore
    rw [if_neg hm]
    dsimp only
    rw [hnd]
  · have hdown := normDown_spec (normUp m (-(scale : Int))).1
      (normUp m (-(scale : Int))).2 M E hnd
    have hE0 : MIN_EXP ≤ (normUp m (-(scale : Int))).2 := by
      apply hup.2.1
      simp only [MIN_EXP]
      omega
    have hEup : (normUp m (-(scale : Int))).2 ≤ -(scale : Int) := hup.1
    constructor
    · intro hMlt
      obtain ⟨hMeq, hEeq⟩ := hdown.2.2.2 (by simpa [MIN_MANTISSA] using hMlt)
      have hexit := hup.2.2
      have hEeq96 : E = -96 := by
        rw [hEeq]
        simp only [MIN_EXP, MIN_MANTISSA] at hexit hE0
        rw [hMeq] at hMlt
        omega
      refine ⟨?_, hEeq96⟩
      unfold issuedCore
      rw [if_neg hm]
      dsimp only
      rw [hnd]
      have hcond : E < MIN_EXP ∨ M < MIN_MANTISSA := Or.inr (by simpa [MIN_MANTISSA] using hMlt)
      simp only [if_pos hcond]
    · intro hMge
      have hMmax : M ≤ 10 ^ 16 - 1 := by simpa [MAX_MANTISSA] using hdown.1
      have hEge : -96 ≤ E := by
        have := hdown.2.1
        simp only [MIN_EXP] at hE0
        omega
      have hEle : E ≤ 80 := by
        have h80 := hdown.2.2.1
        simp only [MAX_EXP] at h80
        have : (normUp m (-(scale : Int))).2 ≤ 80 := by omega
        exact h80 this
      refine ⟨hMmax, hEge, hEle, ?_⟩
      have hx1 : 1 ≤ (E + 97).toNat := by omega
      have hx177 : (E + 97).toNat ≤ 177 := by omega
      have hM54 : M < 2 ^ 54 := by
        have : (10 : Nat) ^ 16 - 1 < 2 ^ 54 := by norm_num
        omega
      have hsor : (if neg then (0 : Nat) else 2 ^ 62) = 0 ∨
          (if neg then (0 : Nat) else 2 ^ 62) = 2 ^ 62 := by
        cases neg <;> simp
      have hrb := header_readback (if neg then (0 : Nat) else 2 ^ 62)
        ((E + 97).toNat) M hsor hx1 hx177 hM54
      refine ⟨2 ^ 63 + (if neg then 0 else 2 ^ 62) + (E + 97).toNat * 2 ^ 54 + M,
        ?_, beBytes_length .., rfl, hrb.1, ?_, hrb.2.2.1, hrb.2.2.2⟩
      · unfold issuedCore
        rw [if_neg hm]
        dsimp only
        rw [hnd]
        have hc1 : ¬ (E < MIN_EXP ∨ M < MIN_MANTISSA) := by
          simp only [MIN_EXP, MIN_MANTISSA]
          omega
        have hc2 : ¬ (MAX_EXP < E ∨ MAX_MANTISSA < M) := by
          simp only [MAX_EXP, MAX_MANTISSA]
          omega
        simp only [if_neg hc1, if_neg hc2]
        rw [header_decompose (if neg then 0 else 2 ^ 62) ((E + 97).toNat) M
          hsor hx177 hM54]
      · have h2 := hrb.2.1
        cases neg <;> simp at h2 ⊢ <;> omega

theorem c2_issued_amount_normalization_witness :
    ((12123 : Nat) ≠ 0 ∧ (3 : Nat) ≤ 28) ∧
    (∀ (ext : Ext) (kvs : List (String × Json)) (bs : List Nat),
      amount_to_bytes ext (Json.obj kvs) = some bs → bs.length = 48) :=
  ⟨⟨by decide, by decide⟩,
   (c2_issued_amount_normalization false 12123 3 (by decide) (by decide)).2.2⟩

theorem mapM_opt_cons {α β : Type} (f : α → Option β) (a : α) (l : List α) :
    (a :: l).mapM f = (f a).bind (fun b => (l.mapM f).map (fun bs => b :: bs)) := by
  rw [List.mapM_cons]
  cases f a
  · rfl
  · cases l.mapM f <;> rfl

theorem lookupStr_eq_none_iff {α : Type} :
    ∀ (l : List (String × α)) (k : String),
      lookupStr l k = none ↔ k ∉ l.map Prod.fst := by
  intro l k
  induction l with
  | nil => simp [lookupStr]
  | cons p rest ih =>
    obtain ⟨k', v⟩ := p
    simp only [lookupStr, List.map_cons, List.mem_cons]
    by_cases h : k' = k
    · simp [h]
    · rw [if_neg h, ih]
      constructor
      · intro hn hc
        rcases hc with rfl | hm
        · exact h rfl
        · exact hn hm
      · exact fun hn hm => hn (Or.inr hm)

theorem lookupStr_mem {α : Type} :
    ∀ (l : List (String × α)) (k : String) (v : α),
      lookupStr l k = some v → (k, v) ∈ l := by
  intro l
  induction l with
  | nil => intro k v h; simp [lookupStr] at h
  | cons p rest ih =>
    intro k v h
    obtain ⟨k', w⟩ := p
    simp only [lookupStr] at h
    by_cases hk : k' = k
    · rw [if_pos hk] at h
      cases h
      exact hk ▸ List.mem_cons_self _ _
    · rw [if_neg hk] at h
      exact List.mem_cons_of_mem _ (ih k v h)

theorem lookupStr_of_mem_nodup {α : Type} :
    ∀ (l : List (String × α)), (l.map Prod.fst).Nodup →
      ∀ (k : String) (v : α), (k, v) ∈ l → lookupStr l k = some v := by
  intro l
  induction l with
  | nil => intro _ k v h; simp at h
  | cons p rest ih =>
    intro hnd k v h
    obtain ⟨k', w⟩ := p
    simp only [List.map_cons, List.nodup_cons] at hnd
    rcases List.mem_cons.mp h with heq | hm
    · cases heq
      simp [lookupStr]
    · by_cases hk : k' = k
      · exfalso
        apply hnd.1
        subst hk
        exact List.mem_map_of_mem Prod.fst hm
      · simp only [lookupStr, if_neg hk]
        exact ih hnd.2 k v hm

theorem lookupStr_eq_of_perm {α : Type} (l' l : List (String × α))
    (hp : l'.Perm l) (hnd : (l.map Prod.fst).Nodup) (k : String) :
    lookupStr l' k = lookupStr l k := by
  have hnd' : (l'.map Prod.fst).Nodup := ((hp.map Prod.fst).nodup_iff).mpr hnd
  cases h : lookupStr l k with
  | none =>
    rw [lookupStr_eq_none_iff] at h ⊢
    exact fun hm => h ((hp.map Prod.fst).mem_iff.mp hm)
  | some v =>
    exact lookupStr_of_mem_nodup l' hnd' k v (hp.mem_iff.mpr (lookupStr_mem l k v h))

theorem sortKeyLe_trans (d : Definitions) : ∀ a b c : String,
    sortKeyLe d a b → sortKeyLe d b c → sortKeyLe d a c := by
  intro a b c hab hbc
  simp only [sortKeyLe, decide_eq_true_eq] at hab hbc ⊢
  omega

theorem sortKeyLe_total (d : Definitions) : ∀ a b : String,
    sortKeyLe d a b || sortKeyLe d b a := by
  intro a b
  simp only [sortKeyLe, Bool.or_eq_true, decide_eq_true_eq]
  omega

theorem sorted_strict (d : Definitions) (keys : List String)
    (hnd : keys.Nodup)
    (hinj : ∀ a ∈ keys, ∀ b ∈ keys,
      get_field_sort_key d a = get_field_sort_key d b → a = b) :
    (ordering_fields d keys).Pairwise (sortKeyLt d) := by
  have hs : (ordering_fields d keys).Pairwise (fun a b => sortKeyLe d a b = true) :=
    List.sorted_mergeSort (sortKeyLe_trans d) (sortKeyLe_total d) keys
  have hnd' : (ordering_fields d keys).Nodup :=
    ((List.mergeSort_perm keys (sortKeyLe d)).nodup_iff).mpr hnd
  refine List.Pairwise.imp_of_mem ?_ (hs.and hnd')
  intro a b ha hb hab
  obtain ⟨hle, hne⟩ := hab
  have ha' : a ∈ keys := List.mem_mergeSort.mp ha
  have hb' : b ∈ keys := List.mem_mergeSort.mp hb
  simp only [sortKeyLe, decide_eq_true_eq] at hle
  unfold sortKeyLt
  rcases hle with h1 | ⟨h1, h2⟩
  · exact Or.inl h1
  · rcases lt_or_eq_of_le h2 with h3 | h3
    · exact Or.inr ⟨h1, h3⟩
    · exact absurd (hinj a ha' b hb' (Prod.ext_iff.mpr ⟨h1, h3⟩)) hne

theorem ordering_fields_perm_eq (d : Definitions) (keys keys' : List String)
    (hp : keys'.Perm keys) (hnd : keys.Nodup)
    (hinj : ∀ a ∈ keys, ∀ b ∈ keys,
      get_field_sort_key d a = get_field_sort_key d b → a = b) :
    ordering_fields d keys' = ordering_fields d keys := by
  have hnd' : keys'.Nodup := hp.nodup_iff.mpr hnd
  have hinj' : ∀ a ∈ keys', ∀ b ∈ keys',
      get_field_sort_key d a = get_field_sort_key d b → a = b :=
    fun a ha b hb => hinj a (hp.mem_iff.mp ha) b (hp.mem_iff.mp hb)
  have h1 := sorted_strict d keys' hnd' hinj'
  have h2 := sorted_strict d keys hnd hinj
  have hpm : (ordering_fields d keys').Perm (ordering_fields d keys) :=
    ((List.mergeSort_perm keys' (sortKeyLe d)).trans hp).trans
      (List.mergeSort_perm keys (sortKeyLe d)).symm
  haveI : IsAntisymm String (sortKeyLt d) := ⟨by
    intro a b hab hba
    exfalso
    unfold sortKeyLt at hab hba
    rcases hab with h | ⟨h1, h2⟩ <;> rcases hba with h' | ⟨h1', h2'⟩ <;> omega⟩
  exact List.eq_of_perm_of_sorted hpm h1 h2

theorem emittedFilter_iff (d : Definitions) (fs : Bool) (name : String) :
    emittedFilter d fs name = true ↔
      ∃ fd, lookupStr d.fields name = some fd ∧ fd.is_serialized = true ∧
        (fs = true → fd.is_signing_field = true) := by
  cases h : lookupStr d.fields name with
  | none => simp [emittedFilter, h]
  | some fd =>
    have he : emittedFilter d fs name = (fd.is_serialized && (!fs || fd.is_signing_field)) := by
      simp [emittedFilter, h]
    rw [he]
    constructor
    · intro hb
      refine ⟨fd, rfl, ?_, ?_⟩
      · cases hser : fd.is_serialized
        · rw [hser] at hb; cases hb
        · rfl
      · intro hfs
        cases hsig : fd.is_signing_field
        · exfalso
          subst hfs
          rw [hsig] at hb
          revert hb
          cases fd.is_serialized <;> decide
        · rfl
    · rintro ⟨fd', heq, hser, hsig⟩
      injection heq with heq
      subst heq
      rw [hser]
      cases hfs : fs
      · rfl
      · simp [hsig hfs]

theorem serialize_fields_eq_mapM (ext : Ext) (d : Definitions)
    (tx : List (String × Json)) (fs : Bool) :
    ∀ order : List String, (∀ n ∈ order, (lookupStr d.fields n).isSome = true) →
      serialize_fields ext d tx fs order =
        ((order.filter (emittedFilter d fs)).mapM
          (fun n => (lookupStr tx n).bind (field_to_bytes ext d n))).map
          (fun ls => ls.flatten) := by
  intro order
  induction order with
  | nil => intro _; rfl
  | cons name rest ih =>
    intro hk
    have hkr : ∀ n ∈ rest, (lookupStr d.fields n).isSome = true :=
      fun n hn => hk n (List.mem_cons_of_mem _ hn)
    obtain ⟨fd, hfd⟩ := Option.isSome_iff_exists.mp (hk name (List.mem_cons_self name rest))
    have hef : emittedFilter d fs name = (fd.is_serialized && (!fs || fd.is_signing_field)) := by
      simp [emittedFilter, hfd]
    simp only [serialize_fields, hfd]
    by_cases hser : fd.is_serialized = true
    · by_cases hsig : fs = true ∧ ¬ fd.is_signing_field = true
      · have hsigf : fd.is_signing_field = false := by
          cases hb : fd.is_signing_field
          · rfl
          · exact absurd hb hsig.2
        have hef0 : emittedFilter d fs name = false := by
          rw [hef, hser, hsig.1, hsigf]
          decide
        rw [if_pos hser, if_pos hsig, List.filter_cons, hef0]
        simpa using ih hkr
      · have hef1 : emittedFilter d fs name = true := by
          rw [hef, hser]
          cases hfs : fs
          · rfl
          · cases hb : fd.is_signing_field
            · exact absurd ⟨rfl, fun hc => by rw [hb] at hc; cases hc⟩ (hfs ▸ hsig)
            · rfl
        rw [if_pos hser, if_neg hsig, List.filter_cons, hef1]
        simp only [if_true, eq_self_iff_true, ite_true]
        rw [mapM_opt_cons]
        cases hv : lookupStr tx name with
        | none => simp [hv]
        | some v =>
          cases hb : field_to_bytes ext d name v with
          | none => simp [hb]
          | some bs =>
            rw [ih hkr]
            cases hm : (rest.filter (emittedFilter d fs)).mapM
                (fun n => (lookupStr tx n).bind (field_to_bytes ext d n)) with
            | none => simp [hm, hb]
            | some ls => simp [hm, hb]
    · have hef0 : emittedFilter d fs name = false := by
        rw [hef]
        cases hb : fd.is_serialized
        · rfl
        · exact absurd hb hser
      rw [if_neg hser, List.filter_cons, hef0]
      simpa using ih hkr

theorem serialize_fields_congr (ext : Ext) (d : Definitions)
    (tx' tx : List (String × Json)) (fs : Bool)
    (hlk : ∀ k, lookupStr tx' k = lookupStr tx k) :
    ∀ order : List String,
      serialize_fields ext d tx' fs order = serialize_fields ext d tx fs order := by
  intro order
  induction order with
  | nil => rfl
  | cons name rest ih => simp only [serialize_fields, hlk, ih]

/-- C1: on a transaction object all of whose keys have catalog definitions
(with pairwise distinct keys and sort keys, as in the shipped catalog), the
canonical field order used by `serialize_tx` — once restricted to the fields
that pass the emission filter — is strictly ascending in the
`(type_code, field_code)` sort key; a field name passes the filter iff its
catalog entry is flagged `is_serialized` and, when `for_signing` holds, also
`is_signing_field`; the produced bytes are exactly the concatenation of the
per-field encodings taken in that canonical order; and the result is
unchanged under any permutation of the input object's key order. -/
theorem c1_serialize_tx_canonical (ext : Ext) (d : Definitions)
    (tx tx' : List (String × Json)) (for_signing : Bool)
    (hknown : ∀ k ∈ tx.map Prod.fst, (lookupStr d.fields k).isSome = true)
    (hnodup : (tx.map Prod.fst).Nodup)
    (hinj : ∀ a ∈ tx.map Prod.fst, ∀ b ∈ tx.map Prod.fst,
      get_field_sort_key d a = get_field_sort_key d b → a = b)
    (hperm : tx'.Perm tx) :
    ((ordering_fields d (tx.map Prod.fst)).filter
      (emittedFilter d for_signing)).Pairwise (sortKeyLt d) ∧
    (∀ name,
      name ∈ (ordering_fields d (tx.map Prod.fst)).filter (emittedFilter d for_signing) ↔
      (name ∈ tx.map Prod.fst ∧ ∃ fd, lookupStr d.fields name = some fd ∧
        fd.is_serialized = true ∧
        (for_signing = true → fd.is_signing_field = true))) ∧
    serialize_tx ext d tx for_signing =
      (((ordering_fields d (tx.map Prod.fst)).filter (emittedFilter d for_signing)).mapM
        (fun n => (lookupStr tx n).bind (field_to_bytes ext d n))).map
        (fun ls => ls.flatten) ∧
    serialize_tx ext d tx' for_signing = serialize_tx ext d tx for_signing := by
  refine ⟨?_, ?_, ?_, ?_⟩
  · exact (sorted_strict d _ hnodup hinj).sublist (List.filter_sublist _)
  · intro name
    constructor
    · intro hm
      rw [List.mem_filter] at hm
      exact ⟨List.mem_mergeSort.mp hm.1,
        (emittedFilter_iff d for_signing name).mp hm.2⟩
    · rintro ⟨hmem, hex⟩
      rw [List.mem_filter]
      exact ⟨List.mem_mergeSort.mpr hmem,
        (emittedFilter_iff d for_signing name).mpr hex⟩
  · exact serialize_fields_eq_mapM ext d tx for_signing _
      (fun n hn => hknown n (List.mem_mergeSort.mp hn))
  · have hpk : (tx'.map Prod.fst).Perm (tx.map Prod.fst) := hperm.map Prod.fst
    have horder : ordering_fields d (tx'.map Prod.fst) =
        ordering_fields d (tx.map Prod.fst) :=
      ordering_fields_perm_eq d (tx.map Prod.fst) (tx'.map Prod.fst) hpk hnodup hinj
    have hlk : ∀ k, lookupStr tx' k = lookupStr tx k :=
      lookupStr_eq_of_perm tx' tx hperm hnodup
    simp only [serialize_tx, horder]
    exact serialize_fields_congr ext d tx' tx for_signing hlk _

theorem c1_serialize_tx_canonical_witness :
    serialize_tx extTest defsTest
      [("Flags", Json.num 0), ("TransactionType", Json.str "Payment")] false =
      serialize_tx extTest defsTest
        [("TransactionType", Json.str "Payment"), ("Flags", Json.num 0)] false :=
  (c1_serialize_tx_canonical extTest defsTest
    [("TransactionType", Json.str "Payment"), ("Flags", Json.num 0)]
    [("Flags", Json.num 0), ("TransactionType", Json.str "Payment")] false
    (by decide) (by decide) (by decide) (List.Perm.swap _ _ _)).2.2.2

end RippledCodec
